import Mathlib

/-!
Verification development for the tensor-shape helpers of `TheanoUtil.py`
(flattening, one-hot encoding, windowing, down/upsampling, padding,
chunked time reversal, and the gradient-discard operator).

Arrays are modelled as flat row-major buffers (`Nat → ℚ`) together with a
shape list, which is exactly the memory model of the underlying engine's
contiguous tensors: `reshape` and `flatten` reinterpret the buffer without
moving data, and every other primitive (`concatenate`, `tile`, `repeat`,
slicing, `mean`/`max`/`min` reductions, `dimshuffle`) is expressed by the
row-major index arithmetic of the corresponding engine operation.
Assertions in the source become `Option`-returning functions (`none` is a
failed assertion).
-/

namespace TheanoUtil

/-- An n-dimensional array: a shape together with a flat row-major buffer.
Entries of `data` at positions `≥ shape.prod` are irrelevant garbage. -/
structure Tensor where
  shape : List Nat
  data : Nat → ℚ

/-- Row-major flat index of a multi-index `idx` in an array of shape `shape`. -/
def flatIndex : List Nat → List Nat → Nat
  | _ :: st, i :: it => i * st.prod + flatIndex st it
  | _, _ => 0

/-- Row-major multi-index of a flat index `i` in an array of shape `shape`. -/
def multiIndex : List Nat → Nat → List Nat
  | [], _ => []
  | _ :: st, i => (i / st.prod) :: multiIndex st (i % st.prod)

/-- `IdxIn idx s`: the multi-index `idx` is in bounds for shape `s`. -/
def IdxIn : List Nat → List Nat → Prop
  | [], [] => True
  | i :: it, n :: nt => i < n ∧ IdxIn it nt
  | _, _ => False

instance instDecidableIdxIn : (idx s : List Nat) → Decidable (IdxIn idx s)
  | [], [] => .isTrue (by simp [IdxIn])
  | [], _ :: _ => .isFalse (by simp [IdxIn])
  | _ :: _, [] => .isFalse (by simp [IdxIn])
  | i :: it, n :: nt =>
    match instDecidableIdxIn it nt with
    | .isTrue h =>
      if hi : i < n then .isTrue (by simp [IdxIn, hi, h])
      else .isFalse (by simp [IdxIn, hi])
    | .isFalse h => .isFalse (by simp [IdxIn, h])

/-- The value of `t` at multi-index `idx` (row-major lookup). -/
def Tensor.get (t : Tensor) (idx : List Nat) : ℚ :=
  t.data (flatIndex t.shape idx)

/-- `T.zeros(shape)`. -/
def Tensor.zeros (s : List Nat) : Tensor :=
  ⟨s, fun _ => 0⟩

/-- `T.reshape(x, newshape)`: reinterpret the row-major buffer under a new
shape (the engine requires `newshape.prod = x.shape.prod`; all call sites
below satisfy this). -/
def reshape (t : Tensor) (newshape : List Nat) : Tensor :=
  ⟨newshape, t.data⟩

/-- `T.flatten(x)`: the row-major buffer viewed as a 1-D array. -/
def flattenT (t : Tensor) : Tensor :=
  ⟨[t.shape.prod], t.data⟩

/-! ### Generic engine primitives (row-major index arithmetic) -/

/-- One Python slice object, restricted to the three forms the source
builds: `slice(None)`, `slice(0, n)` and `slice(-1, None)`. -/
inductive Sl where
  | all : Sl
  | take (n : Nat) : Sl
  | lastOne : Sl
deriving DecidableEq

/-- Core slicing/index-map primitive along dimension `d`: the result has
length `newLen` along `d` and its entry at position `j` along `d` is the
source entry at position `f j`.  Row-major: a flat index decomposes as
`o * (newLen * inner) + j * inner + k` with `inner` the product of the
dimensions after `d`. -/
def sliceMapAxis (t : Tensor) (d : Nat) (newLen : Nat) (f : Nat → Nat) : Tensor :=
  let len := t.shape.getD d 0
  let inner := (t.shape.drop (d + 1)).prod
  ⟨t.shape.set d newLen,
   fun i =>
     let o := i / (newLen * inner)
     let r := i % (newLen * inner)
     let j := r / inner
     let k := r % inner
     t.data (o * (len * inner) + (f j * inner + k))⟩

/-- Apply one slice object to dimension `d` (Python basic-slicing
semantics: `slice(0, n)` clamps to the axis length, `slice(-1, None)`
keeps the last element and is empty on an empty axis). -/
def applySliceAt (t : Tensor) (d : Nat) (s : Sl) : Tensor :=
  match s with
  | .all => t
  | .take n => sliceMapAxis t d (min n (t.shape.getD d 0)) (fun j => j)
  | .lastOne => sliceMapAxis t d (min 1 (t.shape.getD d 0)) (fun _ => t.shape.getD d 0 - 1)

/-- Apply a tuple of slice objects, the slice at list position `p` acting
on dimension `d + p` (Python `x[s0, s1, ...]`; missing trailing slices are
full slices). -/
def applySlices (t : Tensor) (d : Nat) (sl : List Sl) : Tensor :=
  match sl with
  | [] => t
  | s :: rest => applySlices (applySliceAt t d s) (d + 1) rest

/-- `T.concatenate([a, b], axis=axis)` for arrays agreeing on every
dimension but `axis`. -/
def concatAxis (a b : Tensor) (axis : Nat) : Tensor :=
  let la := a.shape.getD axis 0
  let lb := b.shape.getD axis 0
  let inner := (a.shape.drop (axis + 1)).prod
  ⟨a.shape.set axis (la + lb),
   fun i =>
     let o := i / ((la + lb) * inner)
     let r := i % ((la + lb) * inner)
     let j := r / inner
     let k := r % inner
     if j < la then a.data (o * (la * inner) + (j * inner + k))
     else b.data (o * (lb * inner) + ((j - la) * inner + k))⟩

/-- `T.repeat(x, reps, axis=d)`: each element along dimension `d` is
repeated `reps` consecutive times. -/
def repeatAxis (t : Tensor) (d : Nat) (reps : Nat) : Tensor :=
  sliceMapAxis t d (t.shape.getD d 0 * reps) (fun j => j / reps)

/-- `x[:, ::-1]`-style reversal along dimension `d`. -/
def reverseAxis (t : Tensor) (d : Nat) : Tensor :=
  sliceMapAxis t d (t.shape.getD d 0) (fun j => t.shape.getD d 0 - 1 - j)

/-- `T.tile(x, (1, ..., 1, reps))`: tile the last dimension `reps` times
(the only tiling the source performs, `T.tile(padded, (1, 1, window))`).
Row-major, entry at position `m` along the last axis is the source entry
at `m % lastLen`. -/
def tileLast (t : Tensor) (reps : Nat) : Tensor :=
  let lastLen := t.shape.getD (t.shape.length - 1) 0
  ⟨t.shape.set (t.shape.length - 1) (lastLen * reps),
   fun i =>
     let l := lastLen * reps
     let row := i / l
     let m := i % l
     t.data (row * lastLen + m % lastLen)⟩

/-- `x.dimshuffle(perm)` for a permutation `perm` of the axes: new axis
`j` is old axis `perm[j]`. -/
def dimshuffle (t : Tensor) (perm : List Nat) : Tensor :=
  let ns := perm.map (fun p => t.shape.getD p 0)
  ⟨ns,
   fun i =>
     let nidx := multiIndex ns i
     let oidx := (List.range t.shape.length).map
       (fun k => nidx.getD (perm.findIdx (fun p => p == k)) 0)
     t.data (flatIndex t.shape oidx)⟩

/-- Mean of a list of rationals (`sum / length`). -/
def listMean (l : List ℚ) : ℚ := l.sum / l.length

/-- Maximum of a list of rationals (0 on the empty list, which no call
site produces). -/
def listMax (l : List ℚ) : ℚ :=
  match l with
  | [] => 0
  | x :: xs => xs.foldl max x

/-- Minimum of a list of rationals (0 on the empty list, which no call
site produces). -/
def listMin (l : List ℚ) : ℚ :=
  match l with
  | [] => 0
  | x :: xs => xs.foldl min x

/-- Reduce dimension `d` away with `red` (`T.mean/T.max/T.min(x, axis=d)`):
the result at a flat index `o * inner + k` over the remaining dimensions
is `red` of the `len` entries along dimension `d`. -/
def reduceAxis (t : Tensor) (d : Nat) (red : List ℚ → ℚ) : Tensor :=
  let len := t.shape.getD d 0
  let inner := (t.shape.drop (d + 1)).prod
  ⟨t.shape.eraseIdx d,
   fun i =>
     let o := i / inner
     let k := i % inner
     red ((List.range len).map (fun j => t.data (o * (len * inner) + (j * inner + k))))⟩

/-! ### The source functions of `TheanoUtil.py` -/

/-- `time_batch_make_flat(val)`: flatten the first two dimensions, leave
the rest; `assert val.ndim > 1` modelled as `none`. -/
def time_batch_make_flat (val : Tensor) : Option Tensor :=
  if 1 < val.shape.length then
    let s0 := val.shape.getD 0 0 * val.shape.getD 1 0
    some (reshape val (s0 :: val.shape.drop 2))
  else none

/-- C-style cast of a rational to an integer (`T.cast(seq, 'int32')`
truncates toward zero). -/
def ratTrunc (q : ℚ) : ℤ :=
  if 0 ≤ q then ⌊q⌋ else -⌊-q⌋

/-- `class_idx_seq_to_1_of_k(seq, num_classes)`:
`T.eye(num_classes)[T.cast(seq, 'int32')].reshape(shape + [num_classes])`.
Advanced indexing of the identity matrix by the index array gives, at
multi-index `idx ++ [k]` (flat index `p * num_classes + k` with `p` the
flat index into `seq`), the value `1` iff the cast index at `p` equals
`k`. -/
def class_idx_seq_to_1_of_k (seq : Tensor) (num_classes : Nat) : Tensor :=
  ⟨seq.shape ++ [num_classes],
   fun i =>
     if ratTrunc (seq.data (i / num_classes)) = ((i % num_classes : Nat) : ℤ)
     then 1 else 0⟩

/-- The body of `windowed_batch(source, window)` after the
`assert source.ndim == 3`: the chain of pad/tile/reshape/dimshuffle/
flatten/shift operations of the source, verbatim. -/
def windowed_batch_core (source : Tensor) (window : Nat) : Tensor :=
  let n_time := source.shape.getD 0 0
  let n_batch := source.shape.getD 1 0
  let n_dim := source.shape.getD 2 0
  let w_right := window / 2
  let w_left := window - w_right - 1
  let pad_left := Tensor.zeros [w_left, n_batch, n_dim]
  let pad_right := Tensor.zeros [w_right, n_batch, n_dim]
  let padded := concatAxis (concatAxis pad_left source 0) pad_right 0
  let tiled := tileLast padded window
  let tiled_reshape := reshape tiled [n_time + window - 1, n_batch, window, n_dim]
  let tiled_dimshuffle := dimshuffle tiled_reshape [2, 0, 1, 3]
  let tiled_flat := flattenT tiled_dimshuffle
  let rem := n_batch * n_dim * window
  let tiled_flat_pad_right := concatAxis tiled_flat (Tensor.zeros [rem]) 0
  let tiled_reshape_shift := reshape tiled_flat_pad_right [window, n_time + window, n_batch, n_dim]
  let final_dimshuffle := dimshuffle tiled_reshape_shift [1, 2, 0, 3]
  let final_sub := applySliceAt final_dimshuffle 0 (Sl.take n_time)
  reshape final_sub [n_time, n_batch, window * n_dim]

/-- `windowed_batch(source, window)`; `assert source.ndim == 3` modelled
as `none`. -/
def windowed_batch (source : Tensor) (window : Nat) : Option Tensor :=
  if source.shape.length = 3 then some (windowed_batch_core source window)
  else none

/-- `slice_for_axis(axis, s) = (slice(None),) * (axis - 1) + (s,)`.
Note the `axis - 1` (truncated subtraction, like Python's
`(slice(None),) * (-1) = ()` at `axis = 0`). -/
def slice_for_axis (axis : Nat) (s : Sl) : List Sl :=
  List.replicate (axis - 1) Sl.all ++ [s]

/-- `isIntFactor f` is the source's `factor == int(factor)` test: a float
compares equal to its integer truncation exactly when it is an integer. -/
def isIntFactor (f : ℚ) : Bool := f.den == 1

/-- `downsample(source, axis, factor, method)`; asserts modelled as
`none`. -/
def downsample (source : Tensor) (axis : Nat) (factor : ℚ) (method : String) :
    Option Tensor :=
  if isIntFactor factor then
    let f := factor.num.toNat
    let truncated := applySlices source 0
      (slice_for_axis axis (Sl.take (source.shape.getD axis 0 / f * f)))
    let added_dim_shape := truncated.shape.take axis
      ++ [truncated.shape.getD axis 0 / f, f] ++ truncated.shape.drop (axis + 1)
    let reshaped := reshape truncated added_dim_shape
    if method = "average" then some (reduceAxis reshaped (axis + 1) listMean)
    else if method = "max" then some (reduceAxis reshaped (axis + 1) listMax)
    else if method = "min" then some (reduceAxis reshaped (axis + 1) listMin)
    else none
  else none

/-- `pad(source, axis, target_axis_len, pad_value)`: append repeated
`pad_value` slices (`num_missing` forced to at least 1 by the source's
division-by-zero workaround), then trim with
`slice_for_axis(axis, slice(0, target_axis_len))`. -/
def pad (source : Tensor) (axis : Nat) (target_axis_len : Nat)
    (pad_value : Option Tensor) : Tensor :=
  let pv := match pad_value with
    | none => Tensor.zeros (source.shape.set axis 1)
    | some v => v
  let num_missing : ℤ := (target_axis_len : ℤ) - (source.shape.getD axis 0 : ℤ)
  let nm : Nat := (max num_missing 1).toNat
  let target := concatAxis source (repeatAxis pv axis nm) axis
  applySlices target 0 (slice_for_axis axis (Sl.take target_axis_len))

/-- `upsample(source, axis, factor, method, target_axis_len)`; asserts
modelled as `none`. -/
def upsample (source : Tensor) (axis : Nat) (factor : ℚ) (method : String)
    (target_axis_len : Option Nat) : Option Tensor :=
  if method = "nearest-neighbor" then
    if isIntFactor factor then
      let f := factor.num.toNat
      let target := repeatAxis source axis f
      match target_axis_len with
      | none => some target
      | some tal =>
        let last := applySlices source 0 (slice_for_axis axis Sl.lastOne)
        some (pad target axis tal (some last))
    else none
  else none

/-- `chunked_time_reverse(source, chunk_size)`: pad the time axis up to
the next multiple of `chunk_size`, reverse inside each chunk
(`reshaped[:, ::-1]`), reshape back and truncate to the original time
length. -/
def chunked_time_reverse (source : Tensor) (chunk_size : Nat) : Tensor :=
  let num_chunks := (source.shape.getD 0 0 + chunk_size - 1) / chunk_size
  let needed_time := num_chunks * chunk_size
  let remaining_dims := source.shape.drop 1
  let padded_source := pad source 0 needed_time none
  let reshaped := reshape padded_source ([num_chunks, chunk_size] ++ remaining_dims)
  let reshaped_rev := reverseAxis reshaped 1
  let rev_correct_ndim := reshape reshaped_rev (needed_time :: remaining_dims)
  applySliceAt rev_correct_ndim 0 (Sl.take (source.shape.getD 0 0))

/-- The `GradDiscardOutOfBound` operator: a `ViewOp` (identity forward)
holding the two bounds. -/
structure GradDiscardOutOfBound where
  lower_bound : ℚ
  upper_bound : ℚ

/-- `GradDiscardOutOfBound.__init__`: `assert lower_bound <= upper_bound`
modelled as `none`. -/
def GradDiscardOutOfBound.make (lower_bound upper_bound : ℚ) :
    Option GradDiscardOutOfBound :=
  if lower_bound ≤ upper_bound then some ⟨lower_bound, upper_bound⟩ else none

/-- The forward pass of a `ViewOp`: the identity. -/
def GradDiscardOutOfBound.forward (_op : GradDiscardOutOfBound) (x : ℚ) : ℚ := x

/-- One backward gradient value through `GradDiscardOutOfBound.grad`:
`T.switch(T.or_(T.lt(g, lower), T.gt(g, upper)), 0, g)`. -/
def GradDiscardOutOfBound.grad (op : GradDiscardOutOfBound) (g : ℚ) : ℚ :=
  if g < op.lower_bound ∨ g > op.upper_bound then 0 else g

/-- `GradDiscardOutOfBound.grad` applied to a list of output gradients
(the source's list comprehension). -/
def GradDiscardOutOfBound.gradList (op : GradDiscardOutOfBound) (g_outs : List ℚ) :
    List ℚ :=
  g_outs.map op.grad

/-- `grad_discard_out_of_bound(x, lower_bound, upper_bound)`: construct
the operator and apply it (forward). -/
def grad_discard_out_of_bound (x lower_bound upper_bound : ℚ) : Option ℚ :=
  (GradDiscardOutOfBound.make lower_bound upper_bound).map (fun op => op.forward x)

/-- `numpy.argmax` over a vector of rationals: the first index holding the
maximal entry (`findIdx` of "greater or equal to every entry"). -/
def argmaxQ (l : List ℚ) : Nat :=
  l.findIdx (fun x => l.all (fun y => y ≤ x))

/-! ### Concrete example arrays -/

/-- The spec's windowing example: shape `(4, 1, 1)` with values 1,2,3,4. -/
def exWin : Tensor := ⟨[4, 1, 1], fun i => (([1, 2, 3, 4] : List ℚ).getD i 0)⟩

/-- The spec's chunked-reverse example: shape `(7,)` with values 0..6. -/
def exChunk : Tensor := ⟨[7], fun i => (i : ℚ)⟩

/-- A 2×3 example array with entries 0..5. -/
def exA23 : Tensor := ⟨[2, 3], fun i => (i : ℚ)⟩

/-- A 5×1 example array with entries 0..4. -/
def exA51 : Tensor := ⟨[5, 1], fun i => (i : ℚ)⟩

/-- A 2×3×2 example array with entries 0..11. -/
def exA232 : Tensor := ⟨[2, 3, 2], fun i => (i : ℚ)⟩

/-- An index-array example: shape `(3,)` with class indices 2, 0, 1. -/
def exIdx : Tensor := ⟨[3], fun i => (([2, 0, 1] : List ℚ).getD i 0)⟩

/-- The non-integer factor 3/2, given in lowest terms so that its
denominator is a literal. -/
def threeHalves : ℚ := ⟨3, 2, by norm_num, by norm_num⟩

/-! ### Basic index-arithmetic facts -/

theorem IdxIn_prod_pos : ∀ (idx s : List Nat), IdxIn idx s → 0 < s.prod := by
  intro idx s h
  induction idx generalizing s with
  | nil => cases s with
    | nil => simp
    | cons n nt => simp [IdxIn] at h
  | cons i it ih =>
    cases s with
    | nil => simp [IdxIn] at h
    | cons n nt =>
      obtain ⟨hi, hrest⟩ := h
      have := ih nt hrest
      have hn : 0 < n := lt_of_le_of_lt (Nat.zero_le i) hi
      simpa using Nat.mul_pos hn this

theorem flatIndex_lt : ∀ (idx s : List Nat), IdxIn idx s →
    flatIndex s idx < s.prod := by
  intro idx s h
  induction idx generalizing s with
  | nil => cases s with
    | nil => simp [flatIndex]
    | cons n nt => simp [IdxIn] at h
  | cons i it ih =>
    cases s with
    | nil => simp [IdxIn] at h
    | cons n nt =>
      obtain ⟨hi, hrest⟩ := h
      have hrec := ih nt hrest
      have : i * nt.prod + flatIndex nt it < (i + 1) * nt.prod := by
        have h1 : (i + 1) * nt.prod = i * nt.prod + nt.prod := by ring
        omega
      have hle : (i + 1) * nt.prod ≤ n * nt.prod :=
        Nat.mul_le_mul_right _ hi
      simpa [flatIndex] using lt_of_lt_of_le this hle

theorem div_mul_add (q r n : Nat) (h : r < n) : (n * q + r) / n = q := by
  have hn : 0 < n := lt_of_le_of_lt (Nat.zero_le r) h
  rw [Nat.mul_add_div hn, Nat.div_eq_of_lt h]
  omega

theorem mod_mul_add (q r n : Nat) (h : r < n) : (n * q + r) % n = r := by
  rw [Nat.mul_add_mod, Nat.mod_eq_of_lt h]

theorem multiIndex_flatIndex : ∀ (idx s : List Nat), IdxIn idx s →
    multiIndex s (flatIndex s idx) = idx := by
  intro idx s h
  induction idx generalizing s with
  | nil => cases s with
    | nil => simp [multiIndex]
    | cons n nt => simp [IdxIn] at h
  | cons i it ih =>
    cases s with
    | nil => simp [IdxIn] at h
    | cons n nt =>
      obtain ⟨hi, hrest⟩ := h
      have hlt := flatIndex_lt it nt hrest
      simp only [flatIndex, multiIndex]
      rw [Nat.mul_comm i nt.prod]
      rw [div_mul_add i (flatIndex nt it) nt.prod hlt,
          mod_mul_add i (flatIndex nt it) nt.prod hlt]
      simp [ih nt hrest]

/-! ### Pointwise characterisation of the primitives -/

theorem decompPair (j r L P : Nat) (hj : j < L) (hr : r < P) :
    (j * P + r) / (L * P) = 0 ∧ (j * P + r) % (L * P) = j * P + r ∧
    (j * P + r) / P = j ∧ (j * P + r) % P = r := by
  have hlt : j * P + r < L * P := by
    have h1 : (j + 1) * P = j * P + P := by ring
    have h2 : (j + 1) * P ≤ L * P := Nat.mul_le_mul_right _ hj
    omega
  refine ⟨Nat.div_eq_of_lt hlt, Nat.mod_eq_of_lt hlt, ?_, ?_⟩
  · rw [Nat.mul_comm j P]; exact div_mul_add j r P hr
  · rw [Nat.mul_comm j P]; exact mod_mul_add j r P hr

theorem sliceMapAxis0_get (t : Tensor) (n : Nat) (s : List Nat) (L : Nat)
    (f : Nat → Nat) (h : t.shape = n :: s) (j : Nat) (ridx : List Nat)
    (hj : j < L) (hr : IdxIn ridx s) :
    (sliceMapAxis t 0 L f).get (j :: ridx) = t.get (f j :: ridx) := by
  have hflt := flatIndex_lt ridx s hr
  obtain ⟨hd0, hm0, hd1, hm1⟩ :=
    decompPair j (flatIndex s ridx) L s.prod hj hflt
  simp only [Tensor.get, sliceMapAxis, h, flatIndex, List.set, List.getD,
    List.drop, List.prod_cons]
  rw [hd0, hm0, hd1, hm1]
  simp

theorem sliceMapAxis1_get (t : Tensor) (a b : Nat) (s : List Nat) (L : Nat)
    (f : Nat → Nat) (h : t.shape = a :: b :: s) (i j : Nat) (ridx : List Nat)
    (_hi : i < a) (hj : j < L) (hr : IdxIn ridx s) :
    (sliceMapAxis t 1 L f).get (i :: j :: ridx) = t.get (i :: f j :: ridx) := by
  have hflt := flatIndex_lt ridx s hr
  obtain ⟨_, _, hd1, hm1⟩ := decompPair j (flatIndex s ridx) L s.prod hj hflt
  have hr2 : j * s.prod + flatIndex s ridx < L * s.prod := by
    have h1 : (j + 1) * s.prod = j * s.prod + s.prod := by ring
    have h2 : (j + 1) * s.prod ≤ L * s.prod := Nat.mul_le_mul_right _ hj
    omega
  simp only [Tensor.get, sliceMapAxis, h, flatIndex, List.set, List.getD,
    List.get?_cons_succ, List.get?_cons_zero, Option.getD_some, List.drop,
    List.prod_cons]
  rw [show i * (L * s.prod) + (j * s.prod + flatIndex s ridx)
        = (L * s.prod) * i + (j * s.prod + flatIndex s ridx) by ring]
  rw [div_mul_add i _ _ hr2, mod_mul_add i _ _ hr2, hd1, hm1]

theorem concatAxis0_get (a b : Tensor) (n m : Nat) (s : List Nat)
    (ha : a.shape = n :: s) (hb : b.shape = m :: s) (j : Nat) (ridx : List Nat)
    (hj : j < n + m) (hr : IdxIn ridx s) :
    (concatAxis a b 0).get (j :: ridx) =
      if j < n then a.get (j :: ridx) else b.get ((j - n) :: ridx) := by
  have hflt := flatIndex_lt ridx s hr
  obtain ⟨hd0, hm0, hd1, hm1⟩ :=
    decompPair j (flatIndex s ridx) (n + m) s.prod hj hflt
  simp only [Tensor.get, concatAxis, ha, hb, flatIndex, List.set, List.getD,
    List.get?_cons_succ, List.get?_cons_zero, Option.getD_some, List.drop,
    List.prod_cons]
  rw [hd0, hm0, hd1, hm1]
  simp

theorem reduceAxis1_get (t : Tensor) (a b : Nat) (s : List Nat)
    (red : List ℚ → ℚ) (h : t.shape = a :: b :: s) (i : Nat) (ridx : List Nat)
    (hi : i < a) (hr : IdxIn ridx s) :
    (reduceAxis t 1 red).get (i :: ridx) =
      red ((List.range b).map (fun j => t.get (i :: j :: ridx))) := by
  have hflt := flatIndex_lt ridx s hr
  simp only [Tensor.get, reduceAxis, h, flatIndex, List.eraseIdx, List.getD,
    List.get?_cons_succ, List.get?_cons_zero, Option.getD_some, List.drop,
    List.prod_cons]
  rw [show i * s.prod + flatIndex s ridx
        = s.prod * i + flatIndex s ridx by ring]
  rw [div_mul_add i _ _ hflt, mod_mul_add i _ _ hflt]

theorem tileLast3_get (t : Tensor) (M B D reps : Nat) (h : t.shape = [M, B, D])
    (u b m : Nat) (hu : u < M) (hb : b < B) (hm : m < D * reps) :
    (tileLast t reps).get [u, b, m] = t.get [u, b, m % D] := by
  have hDr : 0 < D * reps := lt_of_le_of_lt (Nat.zero_le m) hm
  have hD : 0 < D := by
    rcases Nat.eq_zero_or_pos D with h0 | h0
    · subst h0; simp at hDr
    · exact h0
  have hmod : m % D < D := Nat.mod_lt _ hD
  simp only [Tensor.get, tileLast, h, flatIndex, List.set, List.getD,
    List.get?_cons_succ, List.get?_cons_zero, Option.getD_some,
    List.length_cons, List.length_nil, List.prod_cons, List.prod_nil,
    Nat.mul_one]
  norm_num
  rw [show u * (B * (D * reps)) + (b * (D * reps) + m)
        = (D * reps) * (u * B + b) + m by ring]
  rw [div_mul_add _ _ _ hm]
  rw [show D * reps * (u * B + b) + m = m + D * (reps * (u * B + b)) by ring,
      Nat.add_mul_mod_self_left]
  rw [show (u * B + b) * D + m % D = u * (B * D) + (b * D + m % D) by ring]

theorem dimshuffle_get_2013 (t : Tensor) (a b c d : Nat)
    (h : t.shape = [a, b, c, d]) (i j k l : Nat)
    (hi : i < c) (hj : j < a) (hk : k < b) (hl : l < d) :
    (dimshuffle t [2, 0, 1, 3]).get [i, j, k, l] = t.get [j, k, i, l] := by
  obtain ⟨sh, dat⟩ := t
  have h' : sh = [a, b, c, d] := h
  subst h'
  have hIdx : IdxIn [i, j, k, l] [c, a, b, d] := by
    simp [IdxIn, hi, hj, hk, hl]
  have hround : multiIndex [c, a, b, d] (flatIndex [c, a, b, d] [i, j, k, l])
      = [i, j, k, l] := multiIndex_flatIndex _ _ hIdx
  have hrange : List.range ([a, b, c, d] : List Nat).length = [0, 1, 2, 3] := rfl
  simp only [dimshuffle, Tensor.get, List.map_cons, List.map_nil,
    List.getD_cons_zero, List.getD_cons_succ, hrange, hround]
  rfl

theorem dimshuffle_get_1203 (t : Tensor) (a b c d : Nat)
    (h : t.shape = [a, b, c, d]) (i j k l : Nat)
    (hi : i < b) (hj : j < c) (hk : k < a) (hl : l < d) :
    (dimshuffle t [1, 2, 0, 3]).get [i, j, k, l] = t.get [k, i, j, l] := by
  obtain ⟨sh, dat⟩ := t
  have h' : sh = [a, b, c, d] := h
  subst h'
  have hIdx : IdxIn [i, j, k, l] [b, c, a, d] := by
    simp [IdxIn, hi, hj, hk, hl]
  have hround : multiIndex [b, c, a, d] (flatIndex [b, c, a, d] [i, j, k, l])
      = [i, j, k, l] := multiIndex_flatIndex _ _ hIdx
  have hrange : List.range ([a, b, c, d] : List Nat).length = [0, 1, 2, 3] := rfl
  simp only [dimshuffle, Tensor.get, List.map_cons, List.map_nil,
    List.getD_cons_zero, List.getD_cons_succ, hrange, hround]
  rfl

theorem applySlices_replicate_all (s : Sl) :
    ∀ (k : Nat) (t : Tensor) (d : Nat),
      applySlices t d (List.replicate k Sl.all ++ [s]) = applySliceAt t (d + k) s := by
  intro k
  induction k with
  | zero => intro t d; simp [applySlices]
  | succ k ih =>
    intro t d
    rw [List.replicate_succ]
    show applySlices (applySliceAt t d Sl.all) (d + 1) (List.replicate k Sl.all ++ [s])
      = applySliceAt t (d + (k + 1)) s
    rw [show applySliceAt t d Sl.all = t from rfl, ih t (d + 1),
        show d + 1 + k = d + (k + 1) by omega]

/-- Applying the slice tuple built by `slice_for_axis axis s` applies `s`
to dimension `axis - 1` (truncated subtraction: dimension 0 when
`axis = 0`). -/
theorem applySlices_slice_for_axis (t : Tensor) (axis : Nat) (s : Sl) :
    applySlices t 0 (slice_for_axis axis s) = applySliceAt t (axis - 1) s := by
  have := applySlices_replicate_all s (axis - 1) t 0
  simpa [slice_for_axis] using this

theorem take0_get (t : Tensor) (n : Nat) (s : List Nat) (tal : Nat)
    (h : t.shape = n :: s) (j : Nat) (ridx : List Nat)
    (hj : j < min tal n) (hr : IdxIn ridx s) :
    (applySliceAt t 0 (Sl.take tal)).get (j :: ridx) = t.get (j :: ridx) := by
  have : (applySliceAt t 0 (Sl.take tal))
      = sliceMapAxis t 0 (min tal n) (fun j => j) := by
    simp [applySliceAt, h]
  rw [this]
  exact sliceMapAxis0_get t n s (min tal n) (fun j => j) h j ridx hj hr

/-- Shape of `pad` along `axis = 0`. -/
theorem pad0_shape (t : Tensor) (n : Nat) (s : List Nat) (tal : Nat)
    (h : t.shape = n :: s) :
    (pad t 0 tal none).shape = tal :: s := by
  obtain ⟨sh, dat⟩ := t
  have h' : sh = n :: s := h
  subst h'
  simp only [pad, applySlices_slice_for_axis, Nat.zero_sub, List.set,
    List.getD_cons_zero, applySliceAt, sliceMapAxis, concatAxis, repeatAxis,
    Tensor.zeros]
  congr 1
  omega

/-- Values of `pad` along `axis = 0` with the default zero padding. -/
theorem pad0_get (t : Tensor) (n : Nat) (s : List Nat) (tal : Nat)
    (h : t.shape = n :: s) (j : Nat) (ridx : List Nat)
    (hj : j < tal) (hr : IdxIn ridx s) :
    (pad t 0 tal none).get (j :: ridx) = if j < n then t.get (j :: ridx) else 0 := by
  obtain ⟨sh, dat⟩ := t
  have h' : sh = n :: s := h
  subst h'
  simp only [pad, applySlices_slice_for_axis, Nat.zero_sub, List.set,
    List.getD_cons_zero]
  set nm : Nat := (max ((tal : ℤ) - (n : ℤ)) 1).toNat with hnm
  have hnm1 : 1 ≤ nm := by omega
  have htar : tal ≤ n + 1 * nm := by omega
  have hpvshape : (Tensor.zeros (1 :: s)).shape = 1 :: s := rfl
  have hrepshape : (repeatAxis (Tensor.zeros (1 :: s)) 0 nm).shape
      = (1 * nm) :: s := rfl
  have hcat : (concatAxis ⟨n :: s, dat⟩ (repeatAxis (Tensor.zeros (1 :: s)) 0 nm) 0).shape
      = (n + 1 * nm) :: s := rfl
  rw [take0_get _ (n + 1 * nm) s tal hcat j ridx (by omega) hr]
  rw [concatAxis0_get ⟨n :: s, dat⟩ _ n (1 * nm) s rfl hrepshape j ridx (by omega) hr]
  rcases Nat.lt_or_ge j n with hcase | hcase
  · simp [hcase]
  · have hjn : ¬ j < n := by omega
    simp only [hjn, if_false]
    rw [show repeatAxis (Tensor.zeros (1 :: s)) 0 nm
          = sliceMapAxis (Tensor.zeros (1 :: s)) 0 (1 * nm) (fun j => j / nm) from rfl]
    rw [sliceMapAxis0_get _ 1 s (1 * nm) _ hpvshape (j - n) ridx (by omega) hr]
    simp [Tensor.get, Tensor.zeros]

/-! ### The claims -/

/-- C4: the gradient-discard operator's forward pass returns its input
unchanged; its backward pass maps a gradient value `v` to `0` when
`v < lower_bound` or `v > upper_bound` and returns `v` unchanged when
`lower_bound ≤ v ≤ upper_bound`; and construction with
`lower_bound > upper_bound` fails. -/
theorem C4_grad_discard_contract (lo hi v x : ℚ) :
    (∀ op, GradDiscardOutOfBound.make lo hi = some op →
      op.forward x = x ∧
      ((v < lo ∨ v > hi) → op.grad v = 0) ∧
      (lo ≤ v ∧ v ≤ hi → op.grad v = v)) ∧
    (lo > hi → GradDiscardOutOfBound.make lo hi = none) := by
  constructor
  · intro op hop
    have hle : lo ≤ hi := by
      by_contra hc
      simp [GradDiscardOutOfBound.make, hc] at hop
    rw [GradDiscardOutOfBound.make, if_pos hle] at hop
    obtain rfl : (⟨lo, hi⟩ : GradDiscardOutOfBound) = op := Option.some_injective _ hop
    refine ⟨rfl, ?_, ?_⟩
    · intro hv
      simp [GradDiscardOutOfBound.grad, hv]
    · rintro ⟨h1, h2⟩
      rw [GradDiscardOutOfBound.grad, if_neg]
      rintro (hc | hc) <;> simp only at hc <;> linarith
  · intro hgt
    simp [GradDiscardOutOfBound.make, not_le.mpr hgt]

theorem C4_grad_discard_contract_witness :
    GradDiscardOutOfBound.make (0 : ℚ) 1 = some ⟨0, 1⟩ ∧
    (⟨0, 1⟩ : GradDiscardOutOfBound).forward 7 = 7 ∧
    (⟨0, 1⟩ : GradDiscardOutOfBound).grad 2 = 0 ∧
    (⟨0, 1⟩ : GradDiscardOutOfBound).grad (1/2) = 1/2 ∧
    GradDiscardOutOfBound.make (2 : ℚ) 1 = none := by
  have hmk : GradDiscardOutOfBound.make (0 : ℚ) 1 = some ⟨0, 1⟩ := by
    simp [GradDiscardOutOfBound.make]
  have h1 := C4_grad_discard_contract 0 1 2 7
  have h2 := C4_grad_discard_contract 0 1 (1/2) 7
  have h3 := C4_grad_discard_contract 2 1 0 0
  exact ⟨hmk, (h1.1 ⟨0, 1⟩ hmk).1, (h1.1 ⟨0, 1⟩ hmk).2.1 (by norm_num),
    (h2.1 ⟨0, 1⟩ hmk).2.2 (by norm_num), h3.2 (by norm_num)⟩

/-- C8: every invalid argument is rejected at call time: `downsample` and
`upsample` fail on a non-integer factor, `downsample` fails on a method
outside {average, max, min}, `upsample` fails on a method other than
nearest-neighbor, and `GradDiscardOutOfBound` construction fails when
`lower_bound > upper_bound`; each failure is the `none` (assertion) path,
with no recovery value. -/
theorem C8_fail_fast (A : Tensor) (axis : Nat) (f : ℚ) (m : String) (lo hi : ℚ) :
    (isIntFactor f = false → downsample A axis f m = none) ∧
    (m ≠ "average" ∧ m ≠ "max" ∧ m ≠ "min" → downsample A axis f m = none) ∧
    (m ≠ "nearest-neighbor" → ∀ tal, upsample A axis f m tal = none) ∧
    (isIntFactor f = false → ∀ tal, upsample A axis f "nearest-neighbor" tal = none) ∧
    (lo > hi → GradDiscardOutOfBound.make lo hi = none) := by
  refine ⟨?_, ?_, ?_, ?_, ?_⟩
  · intro hf
    simp [downsample, hf]
  · rintro ⟨h1, h2, h3⟩
    rcases hb : isIntFactor f with hv | hv
    · simp [downsample, hb]
    · simp [downsample, hb, h1, h2, h3]
  · intro hm tal
    simp [upsample, hm]
  · intro hf tal
    simp [upsample, hf]
  · intro hgt
    simp [GradDiscardOutOfBound.make, not_le.mpr hgt]

theorem C8_fail_fast_witness :
    downsample exA23 0 threeHalves "average" = none ∧
    downsample exA23 0 2 "median" = none ∧
    upsample exA23 0 2 "linear" none = none ∧
    upsample exA23 0 threeHalves "nearest-neighbor" none = none ∧
    GradDiscardOutOfBound.make (2 : ℚ) 1 = none := by
  have h1 := C8_fail_fast exA23 0 threeHalves "average" 2 1
  have h2 := C8_fail_fast exA23 0 2 "median" 2 1
  have h3 := C8_fail_fast exA23 0 threeHalves "linear" 2 1
  exact ⟨h1.1 (by decide), h2.2.1 (by decide), h3.2.2.1 (by decide) none,
    h1.2.2.2.1 (by decide) none, h1.2.2.2.2 (by norm_num)⟩

/-- C9: `chunked_time_reverse` applied twice with the same chunk size is
not an involution: on the concrete array `[0,1,2,3,4,5,6]` (time length 7,
not a multiple of the chunk size 3) the double application differs from
the original at time-step 6. -/
theorem C9_not_involution :
    exChunk.shape = [7] ∧ 7 % 3 ≠ 0 ∧
    (chunked_time_reverse (chunked_time_reverse exChunk 3) 3).shape = exChunk.shape ∧
    (chunked_time_reverse (chunked_time_reverse exChunk 3) 3).get [6] = 0 ∧
    exChunk.get [6] = 6 ∧
    (chunked_time_reverse (chunked_time_reverse exChunk 3) 3).get [6] ≠ exChunk.get [6] := by
  refine ⟨rfl, by decide, by decide, by decide, by decide, by decide⟩

/-- C6: `time_batch_make_flat` on an array of shape `(T, B, ...)` yields
`some` array of shape `(T*B, ...)` with the trailing dimensions unchanged,
reshaping the result back to `(T, B, ...)` recovers the array exactly, and
the operation fails (`none`) when `ndim < 2`. -/
theorem C6_time_batch_make_flat (val : Tensor) :
    (∀ T B rest, val.shape = T :: B :: rest →
      time_batch_make_flat val = some (reshape val ((T * B) :: rest)) ∧
      (reshape val ((T * B) :: rest)).shape = (T * B) :: rest ∧
      reshape (reshape val ((T * B) :: rest)) val.shape = val) ∧
    (val.shape.length < 2 → time_batch_make_flat val = none) := by
  constructor
  · intro T B rest h
    refine ⟨?_, rfl, rfl⟩
    simp [time_batch_make_flat, h]
  · intro h
    rw [time_batch_make_flat, if_neg]
    omega

theorem C6_time_batch_make_flat_witness :
    time_batch_make_flat exA232 = some (reshape exA232 [6, 2]) ∧
    (reshape exA232 [6, 2]).shape = [6, 2] ∧
    reshape (reshape exA232 [6, 2]) exA232.shape = exA232 ∧
    time_batch_make_flat exChunk = none := by
  have h := C6_time_batch_make_flat exA232
  have h2 := C6_time_batch_make_flat exChunk
  obtain ⟨ha, hb, hc⟩ := h.1 2 3 [2] rfl
  exact ⟨ha, by simpa using hb, hc, h2.2 (by decide)⟩

/-- C10: for `axis ≥ 1`, `slice_for_axis axis s` is `axis - 1` full slices
followed by `s`, hence applying it applies `s` to dimension `axis - 1`
instead of dimension `axis` (only `axis = 0` targets the dimension the
caller named); consequently `pad` with `axis = 1` leaves axis 1 with
length 4 instead of the requested 2 on a 2×3 array, `downsample` with
`axis = 1` truncates dimension 0 of a 5×1 array from 5 to 1, and
`upsample`'s last-slice step `source[slice_for_axis(axis, slice(-1,
None))]` with `axis = 1` slices dimension 0 of a 5×1 array down to shape
1×1 instead of taking the last column. -/
theorem C10_slice_for_axis_off_by_one (axis : Nat) (s : Sl) (t : Tensor) :
    (1 ≤ axis → slice_for_axis axis s = List.replicate (axis - 1) Sl.all ++ [s]) ∧
    applySlices t 0 (slice_for_axis axis s) = applySliceAt t (axis - 1) s ∧
    (axis = 0 → applySlices t 0 (slice_for_axis axis s) = applySliceAt t axis s) ∧
    (pad exA23 1 2 none).shape = [2, 4] ∧
    (downsample exA51 1 1 "average").map Tensor.shape = some [1, 1] ∧
    (applySlices exA51 0 (slice_for_axis 1 Sl.lastOne)).shape = [1, 1] := by
  refine ⟨fun _ => rfl, applySlices_slice_for_axis t axis s, ?_, by decide, by decide,
    by decide⟩
  rintro rfl
  exact applySlices_slice_for_axis t 0 s

theorem C10_slice_for_axis_off_by_one_witness :
    slice_for_axis 2 (Sl.take 5) = [Sl.all, Sl.take 5] ∧
    applySlices exA23 0 (slice_for_axis 2 (Sl.take 5)) = applySliceAt exA23 1 (Sl.take 5) ∧
    applySlices exA23 0 (slice_for_axis 0 (Sl.take 5)) = applySliceAt exA23 0 (Sl.take 5) := by
  have h := C10_slice_for_axis_off_by_one 2 (Sl.take 5) exA23
  have h0 := C10_slice_for_axis_off_by_one 0 (Sl.take 5) exA23
  exact ⟨h.1 (by decide), h.2.1, h0.2.2.1 rfl⟩

/-- C2 counterexample: `pad` on a 2×3 array with `axis = 1` (a valid axis
index, `1 < ndim = 2`) and target length 2 returns length 4 along axis 1,
not the requested 2 — the trimming slice lands on dimension `axis - 1`. -/
theorem C2_counterexample :
    exA23.shape = [2, 3] ∧ 1 < exA23.shape.length ∧
    (pad exA23 1 2 none).shape.getD 1 0 = 4 ∧ (4 : Nat) ≠ 2 := by
  exact ⟨rfl, by decide, by decide, by decide⟩

/-- C2 (amended to `axis = 0`, the only axis `slice_for_axis` targets
correctly): `pad(A, 0, target_len)` returns an array of length
`target_len` along axis 0, equal to `A` below the original length (so a
smaller target truncates, with no error) and zero (the default pad value)
on the appended positions, with all other axes unchanged. -/
theorem C2_pad_axis0 (t : Tensor) (n : Nat) (s : List Nat) (tal : Nat)
    (h : t.shape = n :: s) :
    (pad t 0 tal none).shape = tal :: s ∧
    (∀ j ridx, j < tal → IdxIn ridx s →
      (pad t 0 tal none).get (j :: ridx) = if j < n then t.get (j :: ridx) else 0) :=
  ⟨pad0_shape t n s tal h, fun j ridx hj hr => pad0_get t n s tal h j ridx hj hr⟩

theorem C2_pad_axis0_witness :
    (pad exA23 0 5 none).shape = [5, 3] ∧
    (pad exA23 0 5 none).get [1, 2] = exA23.get [1, 2] ∧
    (pad exA23 0 5 none).get [4, 0] = 0 ∧
    (pad exA23 0 1 none).shape = [1, 3] := by
  have h5 := C2_pad_axis0 exA23 2 [3] 5 rfl
  have h1 := C2_pad_axis0 exA23 2 [3] 1 rfl
  refine ⟨h5.1, ?_, ?_, h1.1⟩
  · have := h5.2 1 [2] (by decide) (by decide)
    simpa using this
  · have := h5.2 4 [0] (by decide) (by decide)
    simpa using this

/-- C5 counterexample: on a 5×1 array with `axis = 1` and factor 1,
`downsample (upsample A) ` has shape 1×1, not `A`'s shape — `downsample`'s
truncation slice lands on dimension `axis - 1 = 0` and shrinks it to
`1 * factor = 1`. -/
theorem C5_counterexample :
    exA51.shape = [5, 1] ∧
    ((upsample exA51 1 1 "nearest-neighbor" none).bind
      (fun u => downsample u 1 1 "average")).map Tensor.shape = some [1, 1] ∧
    ((upsample exA51 1 1 "nearest-neighbor" none).bind
      (fun u => downsample u 1 1 "average")).map Tensor.shape ≠ some exA51.shape := by
  exact ⟨rfl, by decide, by decide⟩

theorem listMean_replicate (F : Nat) (hF : 0 < F) (c : ℚ) :
    listMean (List.replicate F c) = c := by
  have hF' : (F : ℚ) ≠ 0 := Nat.cast_ne_zero.mpr (by omega)
  simp [listMean, List.sum_replicate, nsmul_eq_mul]
  field_simp

/-- C5 (amended to `axis = 0`, the only axis `slice_for_axis` targets
correctly): averaging `downsample` by an integer factor `F ≥ 1` after
nearest-neighbor `upsample` by the same factor recovers the array exactly
(exact arithmetic over ℚ). -/
theorem C5_down_up_axis0 (t : Tensor) (n : Nat) (s : List Nat) (F : Nat)
    (h : t.shape = n :: s) (hF : 1 ≤ F) :
    ((upsample t 0 (F : ℚ) "nearest-neighbor" none).bind
      (fun u => downsample u 0 (F : ℚ) "average")).isSome = true ∧
    ∀ R, (upsample t 0 (F : ℚ) "nearest-neighbor" none).bind
        (fun u => downsample u 0 (F : ℚ) "average") = some R →
      R.shape = t.shape ∧
      ∀ j ridx, j < n → IdxIn ridx s → R.get (j :: ridx) = t.get (j :: ridx) := by
  have hden : isIntFactor ((F : ℕ) : ℚ) = true := by
    simp [isIntFactor]
  have hnum : (((F : ℕ) : ℚ)).num.toNat = F := by
    simp
  have hup : upsample t 0 (F : ℚ) "nearest-neighbor" none = some (repeatAxis t 0 F) := by
    rw [upsample, if_pos rfl, if_pos hden, hnum]
  set U := repeatAxis t 0 F with hUdef
  have hUsh : U.shape = (n * F) :: s := by
    simp [hUdef, repeatAxis, sliceMapAxis, h]
  have hdiv : n * F / F * F = n * F := by
    rw [Nat.mul_div_cancel n (by omega : 0 < F)]
  have htrunc : applySlices U 0 (slice_for_axis 0 (Sl.take (U.shape.getD 0 0 / F * F)))
      = sliceMapAxis U 0 (n * F) (fun j => j) := by
    rw [applySlices_slice_for_axis]
    show applySliceAt U 0 (Sl.take (U.shape.getD 0 0 / F * F)) = _
    rw [applySliceAt, hUsh]
    simp [hdiv]
  set Tr := sliceMapAxis U 0 (n * F) (fun j => j) with hTrdef
  have hTrsh : Tr.shape = (n * F) :: s := by
    simp [hTrdef, sliceMapAxis, hUsh]
  have hshape_list : Tr.shape.take 0 ++ [Tr.shape.getD 0 0 / F, F] ++ Tr.shape.drop 1
      = n :: F :: s := by
    rw [hTrsh]
    simp [Nat.mul_div_cancel n (by omega : 0 < F)]
  have hdown : downsample U 0 (F : ℚ) "average"
      = some (reduceAxis (reshape Tr (n :: F :: s)) 1 listMean) := by
    simp only [downsample, hden, if_true, hnum, htrunc, hshape_list]
  have hbind : (upsample t 0 (F : ℚ) "nearest-neighbor" none).bind
      (fun u => downsample u 0 (F : ℚ) "average")
      = some (reduceAxis (reshape Tr (n :: F :: s)) 1 listMean) := by
    rw [hup, Option.some_bind, hdown]
  constructor
  · rw [hbind]; rfl
  intro R hR
  rw [hbind] at hR
  obtain rfl : reduceAxis (reshape Tr (n :: F :: s)) 1 listMean = R :=
    Option.some_injective _ hR
  constructor
  · simp [reduceAxis, reshape, h]
  intro j ridx hj hr
  rw [reduceAxis1_get (reshape Tr (n :: F :: s)) n F s listMean rfl j ridx hj hr]
  have hentry : ∀ p, p < F →
      (reshape Tr (n :: F :: s)).get (j :: p :: ridx) = t.get (j :: ridx) := by
    intro p hp
    have hb1 : j * F + p < n * F := by
      have h1 : (j + 1) * F = j * F + F := by ring
      have h2 : (j + 1) * F ≤ n * F := Nat.mul_le_mul_right _ hj
      omega
    have hflat : flatIndex (n :: F :: s) (j :: p :: ridx)
        = flatIndex ((n * F) :: s) ((j * F + p) :: ridx) := by
      simp only [flatIndex, List.prod_cons]
      ring
    have hstep1 : (reshape Tr (n :: F :: s)).get (j :: p :: ridx)
        = Tr.get ((j * F + p) :: ridx) := by
      simp only [Tensor.get, reshape, hflat, hTrsh]
    rw [hstep1, hTrdef,
      sliceMapAxis0_get U (n * F) s (n * F) (fun j => j) hUsh (j * F + p) ridx hb1 hr]
    rw [hUdef]
    show (sliceMapAxis t 0 (t.shape.getD 0 0 * F) (fun j => j / F)).get
        ((j * F + p) :: ridx) = t.get (j :: ridx)
    have hgd : t.shape.getD 0 0 * F = n * F := by rw [h]; rfl
    rw [hgd, sliceMapAxis0_get t n s (n * F) (fun j => j / F) h (j * F + p) ridx hb1 hr]
    have : (j * F + p) / F = j := by
      rw [Nat.mul_comm j F]
      exact div_mul_add j p F hp
    rw [this]
  have hmap : (List.range F).map
      (fun p => (reshape Tr (n :: F :: s)).get (j :: p :: ridx))
      = List.replicate F (t.get (j :: ridx)) := by
    rw [show List.replicate F (t.get (j :: ridx))
          = (List.range F).map (fun _ => t.get (j :: ridx)) by
        simp [List.map_const']]
    apply List.map_congr_left
    intro p hp
    exact hentry p (List.mem_range.mp hp)
  rw [hmap, listMean_replicate F (by omega) _]

theorem C5_down_up_axis0_witness :
    ((upsample exA51 0 (2 : ℚ) "nearest-neighbor" none).bind
      (fun u => downsample u 0 (2 : ℚ) "average")).isSome = true ∧
    ∀ R, (upsample exA51 0 (2 : ℚ) "nearest-neighbor" none).bind
        (fun u => downsample u 0 (2 : ℚ) "average") = some R →
      R.shape = [5, 1] ∧ R.get [3, 0] = exA51.get [3, 0] := by
  have h := C5_down_up_axis0 exA51 5 [1] 2 rfl (by decide)
  have h2 : ((2 : ℕ) : ℚ) = (2 : ℚ) := by norm_num
  rw [h2] at h
  refine ⟨h.1, fun R hR => ?_⟩
  obtain ⟨hsh, hget⟩ := h.2 R hR
  exact ⟨hsh, hget 3 [0] (by decide) (by decide)⟩

/-- C3: `chunked_time_reverse` keeps the shape and, at time-step `u`, holds
the source entry at the position of `u` reflected inside its own chunk
(`u/C*C + (C-1-u%C)`), or 0 when that reflected position falls into the
zero padding beyond the original time length. -/
theorem C3_chunked_time_reverse (t : Tensor) (T : Nat) (s : List Nat) (C : Nat)
    (h : t.shape = T :: s) (hC : 1 ≤ C) :
    (chunked_time_reverse t C).shape = T :: s ∧
    ∀ u ridx, u < T → IdxIn ridx s →
      (chunked_time_reverse t C).get (u :: ridx) =
        if u / C * C + (C - 1 - u % C) < T
        then t.get ((u / C * C + (C - 1 - u % C)) :: ridx) else 0 := by
  have hunfold : chunked_time_reverse t C
      = applySliceAt (reshape (reverseAxis (reshape (pad t 0 ((T + C - 1) / C * C) none)
          ([(T + C - 1) / C, C] ++ s)) 1) ((T + C - 1) / C * C :: s)) 0 (Sl.take T) := by
    simp only [chunked_time_reverse, h, List.getD_cons_zero, List.drop_succ_cons,
      List.drop_zero]
  rw [hunfold]
  set nc := (T + C - 1) / C with hnc
  have hTneed : T ≤ nc * C := by
    rcases Nat.eq_zero_or_pos T with hT0 | hT0
    · omega
    · have he : T + C - 1 = (T - 1) + C := by omega
      have hna : nc = (T - 1) / C + 1 := by
        rw [hnc, he, Nat.add_div_right _ (by omega : 0 < C)]
      have hmod := Nat.div_add_mod (T - 1) C
      have hrlt : (T - 1) % C < C := Nat.mod_lt _ (by omega)
      have hexp : ((T - 1) / C + 1) * C = C * ((T - 1) / C) + C := by ring
      rw [hna]
      omega
  set P := pad t 0 (nc * C) none with hPdef
  have hPsh : P.shape = (nc * C) :: s := pad0_shape t T s (nc * C) h
  set Rsh := reshape P ([nc, C] ++ s) with hRshdef
  have hRevEq : reverseAxis Rsh 1 = sliceMapAxis Rsh 1 C (fun j => C - 1 - j) := rfl
  set Rev := reverseAxis Rsh 1 with hRevdef
  have hRevsh : Rev.shape = nc :: C :: s := rfl
  set RC := reshape Rev ((nc * C) :: s) with hRCdef
  constructor
  · show (applySliceAt RC 0 (Sl.take T)).shape = T :: s
    have : (applySliceAt RC 0 (Sl.take T)).shape = (min T (nc * C)) :: s := rfl
    rw [this]
    congr 1
    omega
  intro u ridx hu hr
  rw [take0_get RC (nc * C) s T rfl u ridx (by omega) hr]
  have hu2 : u % C < C := Nat.mod_lt _ (by omega)
  have hu1 : u / C < nc := by
    rw [Nat.div_lt_iff_lt_mul (by omega : 0 < C)]
    omega
  have hflat : flatIndex ((nc * C) :: s) (u :: ridx)
      = flatIndex (nc :: C :: s) (u / C :: u % C :: ridx) := by
    simp only [flatIndex, List.prod_cons]
    have hdm : C * (u / C) + u % C = u := Nat.div_add_mod u C
    have h2 : u / C * (C * s.prod) + (u % C * s.prod + flatIndex s ridx)
        = (C * (u / C) + u % C) * s.prod + flatIndex s ridx := by ring
    rw [h2, hdm]
  have hRCRev : RC.get (u :: ridx) = Rev.get (u / C :: u % C :: ridx) := by
    simp only [Tensor.get, hRCdef, reshape, hflat, hRevsh]
  rw [hRCRev, hRevEq,
    sliceMapAxis1_get Rsh nc C s C (fun j => C - 1 - j) rfl (u / C) (u % C) ridx hu1 hu2 hr]
  have hflat2 : flatIndex (nc :: C :: s) (u / C :: (C - 1 - u % C) :: ridx)
      = flatIndex ((nc * C) :: s) ((u / C * C + (C - 1 - u % C)) :: ridx) := by
    simp only [flatIndex, List.prod_cons]
    ring
  have hRshP : Rsh.get (u / C :: (C - 1 - u % C) :: ridx)
      = P.get ((u / C * C + (C - 1 - u % C)) :: ridx) := by
    simp only [Tensor.get, hRshdef, reshape, List.cons_append, List.nil_append,
      hflat2, hPsh]
  rw [hRshP]
  have hs' : u / C * C + (C - 1 - u % C) < nc * C := by
    have h1 : u / C + 1 ≤ nc := hu1
    have h2 : (u / C + 1) * C ≤ nc * C := Nat.mul_le_mul_right _ h1
    have h3 : (u / C + 1) * C = u / C * C + C := by ring
    omega
  rw [hPdef, pad0_get t T s (nc * C) h _ ridx hs' hr]

theorem C3_chunked_time_reverse_witness :
    (chunked_time_reverse exChunk 3).shape = [7] ∧
    (chunked_time_reverse exChunk 3).get [0] = 2 ∧
    (chunked_time_reverse exChunk 3).get [1] = 1 ∧
    (chunked_time_reverse exChunk 3).get [2] = 0 ∧
    (chunked_time_reverse exChunk 3).get [3] = 5 ∧
    (chunked_time_reverse exChunk 3).get [4] = 4 ∧
    (chunked_time_reverse exChunk 3).get [5] = 3 ∧
    (chunked_time_reverse exChunk 3).get [6] = 0 := by
  have h := C3_chunked_time_reverse exChunk 7 [] 3 rfl (by decide)
  refine ⟨h.1, ?_, ?_, ?_, ?_, ?_, ?_, ?_⟩
  all_goals rw [h.2 _ [] (by decide) (by decide)]
  all_goals decide

theorem flatIndex_append_single : ∀ (idx s : List Nat) (K k : Nat), IdxIn idx s →
    flatIndex (s ++ [K]) (idx ++ [k]) = flatIndex s idx * K + k := by
  intro idx
  induction idx with
  | nil =>
    intro s K k h
    cases s with
    | nil => simp [flatIndex]
    | cons n nt => simp [IdxIn] at h
  | cons i it ih =>
    intro s K k h
    cases s with
    | nil => simp [IdxIn] at h
    | cons n nt =>
      obtain ⟨hi, hrest⟩ := h
      simp only [List.cons_append, flatIndex, List.prod_append, List.prod_cons,
        List.prod_nil, List.append_eq]
      rw [ih nt K k hrest]
      ring

theorem one_hot_get (seq : Tensor) (K : Nat) (idx : List Nat) (k : Nat)
    (hidx : IdxIn idx seq.shape) (hk : k < K) :
    (class_idx_seq_to_1_of_k seq K).get (idx ++ [k])
      = if ratTrunc (seq.get idx) = (k : ℤ) then 1 else 0 := by
  simp only [Tensor.get, class_idx_seq_to_1_of_k,
    flatIndex_append_single idx seq.shape K k hidx]
  rw [Nat.mul_comm (flatIndex seq.shape idx) K,
    div_mul_add _ _ _ hk, mod_mul_add _ _ _ hk]

theorem ratTrunc_natCast (m : Nat) : ratTrunc ((m : Nat) : ℚ) = (m : ℤ) := by
  rw [ratTrunc, if_pos (by positivity)]
  exact Int.floor_natCast m

theorem sum_indicator_range (K m : Nat) (hm : m < K) :
    ((List.range K).map (fun k => if k = m then (1 : ℚ) else 0)).sum = 1 := by
  induction K with
  | zero => omega
  | succ K ih =>
    rw [List.range_succ, List.map_append, List.sum_append]
    rcases Nat.lt_or_ge m K with hc | hc
    · rw [ih hc]
      have : K ≠ m := by omega
      simp [this]
    · have hm' : m = K := by omega
      subst hm'
      have hz : ((List.range m).map (fun k => if k = m then (1 : ℚ) else 0)).sum = 0 := by
        apply List.sum_eq_zero
        intro x hx
        obtain ⟨k, hk, rfl⟩ := List.mem_map.mp hx
        have : k ≠ m := by
          have := List.mem_range.mp hk
          omega
        simp [this]
      rw [hz]
      simp

theorem findIdx_spec (p : ℚ → Bool) : ∀ (l : List ℚ) (m : Nat), m < l.length →
    p (l.getD m 0) = true → (∀ i, i < m → p (l.getD i 0) = false) →
    l.findIdx p = m := by
  intro l
  induction l with
  | nil => intro m hm _ _; simp at hm
  | cons x xs ih =>
    intro m hm hp hbef
    cases m with
    | zero =>
      simp only [List.getD_cons_zero] at hp
      simp [List.findIdx_cons, hp]
    | succ m' =>
      have hx : p x = false := by
        have := hbef 0 (by omega)
        simpa using this
      have hxs : xs.findIdx p = m' := by
        apply ih m' (by simpa using hm) (by simpa using hp)
        intro i hi
        have := hbef (i + 1) (by omega)
        simpa using this
      simp [List.findIdx_cons, hx, hxs]

theorem getD_map_range (f : Nat → ℚ) (K i : Nat) (hi : i < K) :
    ((List.range K).map f).getD i 0 = f i := by
  have h1 : ((List.range K).map f)[i]? = some (f i) := by
    rw [List.getElem?_map, List.getElem?_range hi]
    rfl
  simp [List.getD, h1]

theorem argmaxQ_indicator (K m : Nat) (hm : m < K) :
    argmaxQ ((List.range K).map (fun k => if k = m then (1 : ℚ) else 0)) = m := by
  set l := (List.range K).map (fun k => if k = m then (1 : ℚ) else 0) with hl
  have hlen : l.length = K := by simp [hl]
  have hmem1 : (1 : ℚ) ∈ l := by
    rw [hl]
    exact List.mem_map.mpr ⟨m, List.mem_range.mpr hm, by simp⟩
  apply findIdx_spec
  · omega
  · rw [hl, getD_map_range _ K m hm]
    simp only [if_pos rfl]
    rw [List.all_eq_true]
    intro x hx
    rw [← hl] at hx
    obtain ⟨k, _, rfl⟩ := List.mem_map.mp (hl ▸ hx)
    by_cases hkm : k = m <;> simp [hkm]
  · intro i hi
    rw [hl, getD_map_range _ K i (by omega)]
    have : i ≠ m := by omega
    simp only [this, if_false]
    rw [List.all_eq_false]
    refine ⟨1, hl ▸ hmem1, by norm_num⟩

/-- C7: for an index array whose entries are naturals below `K`, the
one-hot encoding appends one trailing dimension of size `K`, each slice
along it is the indicator of the original index (so it sums to 1), and
`argmax` along it recovers the original index. -/
theorem C7_one_hot (seq : Tensor) (K : Nat) :
    (class_idx_seq_to_1_of_k seq K).shape = seq.shape ++ [K] ∧
    ∀ idx (m : Nat), IdxIn idx seq.shape → m < K → seq.get idx = (m : ℚ) →
      (∀ k, k < K → (class_idx_seq_to_1_of_k seq K).get (idx ++ [k])
          = if k = m then 1 else 0) ∧
      ((List.range K).map
        (fun k => (class_idx_seq_to_1_of_k seq K).get (idx ++ [k]))).sum = 1 ∧
      argmaxQ ((List.range K).map
        (fun k => (class_idx_seq_to_1_of_k seq K).get (idx ++ [k]))) = m := by
  refine ⟨rfl, ?_⟩
  intro idx m hidx hm hv
  have hget : ∀ k, k < K → (class_idx_seq_to_1_of_k seq K).get (idx ++ [k])
      = if k = m then 1 else 0 := by
    intro k hk
    rw [one_hot_get seq K idx k hidx hk, hv, ratTrunc_natCast]
    by_cases hkm : k = m
    · subst hkm; simp
    · have : ¬ ((m : ℤ) = (k : ℤ)) := by
        intro hc
        exact hkm (by exact_mod_cast hc.symm)
      simp [this, hkm]
  have hmap : (List.range K).map
      (fun k => (class_idx_seq_to_1_of_k seq K).get (idx ++ [k]))
      = (List.range K).map (fun k => if k = m then (1 : ℚ) else 0) := by
    apply List.map_congr_left
    intro k hk
    exact hget k (List.mem_range.mp hk)
  exact ⟨hget, by rw [hmap]; exact sum_indicator_range K m hm,
    by rw [hmap]; exact argmaxQ_indicator K m hm⟩

theorem C7_one_hot_witness :
    (class_idx_seq_to_1_of_k exIdx 3).shape = [3, 3] ∧
    (class_idx_seq_to_1_of_k exIdx 3).get ([0] ++ [2]) = 1 ∧
    (class_idx_seq_to_1_of_k exIdx 3).get ([0] ++ [0]) = 0 ∧
    ((List.range 3).map
      (fun k => (class_idx_seq_to_1_of_k exIdx 3).get ([0] ++ [k]))).sum = 1 ∧
    argmaxQ ((List.range 3).map
      (fun k => (class_idx_seq_to_1_of_k exIdx 3).get ([0] ++ [k]))) = 2 := by
  have h := C7_one_hot exIdx 3
  obtain ⟨hg, hsum, hargmax⟩ := h.2 [0] 2 (by decide) (by decide) (by decide)
  refine ⟨h.1, ?_, ?_, hsum, hargmax⟩
  · rw [hg 2 (by decide)]; decide
  · rw [hg 0 (by decide)]; decide

/-- C1: `windowed_batch` on a `(T, B, D)` array with window `W ≥ 1`
succeeds, the result has shape `(T, B, W*D)`, and the output at
`(t, b, w*D + d)` — slot `w` of the concatenated window, coordinate `d` —
is the source entry at time-step `t + w - w_left` (with `w_right = W / 2`
by integer division and `w_left = W - w_right - 1`, so the window at `t`
spans source steps `t - w_left .. t + w_right`), and 0 when that step
falls outside `[0, T)`. -/
theorem C1_windowed_batch (src : Tensor) (T B D W : Nat)
    (h : src.shape = [T, B, D]) (hW : 1 ≤ W) :
    windowed_batch src W = some (windowed_batch_core src W) ∧
    (windowed_batch_core src W).shape = [T, B, W * D] ∧
    ∀ t b w d, t < T → b < B → w < W → d < D →
      (windowed_batch_core src W).get [t, b, w * D + d] =
        if W - W / 2 - 1 ≤ t + w ∧ t + w < T + (W - W / 2 - 1)
        then src.get [t + w - (W - W / 2 - 1), b, d] else 0 := by
  refine ⟨by rw [windowed_batch, if_pos (by simp [h])],
    by simp [windowed_batch_core, h, reshape], ?_⟩
  intro t b w d ht hb hwlt hd
  have hunfold : windowed_batch_core src W =
      reshape (applySliceAt (dimshuffle (reshape (concatAxis
        (flattenT (dimshuffle (reshape (tileLast
          (concatAxis (concatAxis (Tensor.zeros [W - W / 2 - 1, B, D]) src 0)
            (Tensor.zeros [W / 2, B, D]) 0) W)
          [T + W - 1, B, W, D]) [2, 0, 1, 3]))
        (Tensor.zeros [B * D * W]) 0)
        [W, T + W, B, D]) [1, 2, 0, 3]) 0 (Sl.take T)) [T, B, W * D] := by
    simp only [windowed_batch_core, h, List.getD_cons_zero, List.getD_cons_succ]
  rw [hunfold]
  set wr := W / 2 with hwr
  set wl := W - wr - 1 with hwl
  have hwsum : wl + 1 + wr = W := by
    have : wr < W := by rw [hwr]; exact Nat.div_lt_self (by omega) (by omega)
    omega
  have hM : T + W - 1 = wl + T + wr := by omega
  rw [hM]
  set padded := concatAxis (concatAxis (Tensor.zeros [wl, B, D]) src 0)
      (Tensor.zeros [wr, B, D]) 0 with hpadded
  have hP1sh : (concatAxis (Tensor.zeros [wl, B, D]) src 0).shape
      = (wl + T) :: [B, D] := by
    simp [concatAxis, Tensor.zeros, h]
  have hpadsh : padded.shape = (wl + T + wr) :: [B, D] := by
    rw [hpadded]
    simp [concatAxis, Tensor.zeros, hP1sh, h]
  have hrbd : IdxIn [b, d] [B, D] := by simp [IdxIn, hb, hd]
  have hpadget : ∀ u, u < wl + T + wr →
      padded.get [u, b, d] = if u < wl then 0
        else if u - wl < T then src.get [u - wl, b, d] else 0 := by
    intro u hu
    rw [hpadded, concatAxis0_get _ _ (wl + T) wr [B, D] hP1sh (by simp [Tensor.zeros])
      u [b, d] (by omega) hrbd]
    by_cases hc : u < wl + T
    · rw [if_pos hc,
        concatAxis0_get _ _ wl T [B, D] (by simp [Tensor.zeros]) h u [b, d] hc hrbd]
      by_cases hc2 : u < wl
      · simp [hc2, Tensor.get, Tensor.zeros]
      · have hc3 : u - wl < T := by omega
        simp [hc2, hc3]
    · rw [if_neg hc]
      have h1 : ¬ u < wl := by omega
      have h2 : ¬ (u - wl < T) := by omega
      simp [h1, h2, Tensor.get, Tensor.zeros]
  set tiled := tileLast padded W with htiled
  have htilesh : tiled.shape = [wl + T + wr, B, D * W] := by
    simp [htiled, tileLast, hpadsh]
  have htileget : ∀ u m, u < wl + T + wr → m < D * W →
      tiled.get [u, b, m] = padded.get [u, b, m % D] := by
    intro u m hu hm
    rw [htiled]
    exact tileLast3_get padded (wl + T + wr) B D W hpadsh u b m hu hb hm
  set trsh := reshape tiled [wl + T + wr, B, W, D] with htrsh
  have htrshget : ∀ u, u < wl + T + wr →
      trsh.get [u, b, w, d] = tiled.get [u, b, w * D + d] := by
    intro u hu
    simp only [htrsh, Tensor.get, reshape, htilesh]
    congr 1
    simp only [flatIndex, List.prod_cons, List.prod_nil]
    ring
  set tds := dimshuffle trsh [2, 0, 1, 3] with htds
  have htdssh : tds.shape = [W, wl + T + wr, B, D] := by
    rw [htds]
    simp [dimshuffle, htrsh, reshape]
  have htdsget : ∀ u, u < wl + T + wr →
      tds.get [w, u, b, d] = trsh.get [u, b, w, d] := by
    intro u hu
    rw [htds]
    exact dimshuffle_get_2013 trsh (wl + T + wr) B W D (by rw [htrsh]; rfl) w u b d
      hwlt hu hb hd
  set SZ := ([W, wl + T + wr, B, D] : List Nat).prod with hSZ
  set tf := flattenT tds with htf
  have htfsh : tf.shape = [SZ] := by
    rw [htf, hSZ]
    show [tds.shape.prod] = _
    rw [htdssh]
  set cc := concatAxis tf (Tensor.zeros [B * D * W]) 0 with hcc
  have hccsh : cc.shape = [SZ + B * D * W] := by
    rw [hcc]
    simp [concatAxis, htfsh, Tensor.zeros]
  have hccget : ∀ i, i < SZ → cc.get [i] = tds.data i := by
    intro i hi
    rw [hcc, concatAxis0_get tf _ SZ (B * D * W) [] htfsh (by simp [Tensor.zeros])
      i [] (by omega) (by simp [IdxIn])]
    rw [if_pos hi]
    simp [Tensor.get, htf, flattenT, flatIndex]
  set trs := reshape cc [W, T + W, B, D] with htrs
  set fd := dimshuffle trs [1, 2, 0, 3] with hfd
  have hfdsh : fd.shape = [T + W, B, W, D] := by
    rw [hfd]
    simp [dimshuffle, htrs, reshape]
  have hfdget : fd.get [t, b, w, d] = trs.get [w, t, b, d] := by
    rw [hfd]
    exact dimshuffle_get_1203 trs W (T + W) B D (by rw [htrs]; rfl) t b w d
      (by omega) hb hwlt hd
  set fs := applySliceAt fd 0 (Sl.take T) with hfs
  have hmin : min T (T + W) = T := Nat.min_eq_left (by omega)
  have hfssh : fs.shape = [T, B, W, D] := by
    rw [hfs]
    simp [applySliceAt, sliceMapAxis, hfdsh, hmin]
  have hfsget : fs.get [t, b, w, d] = fd.get [t, b, w, d] := by
    rw [hfs]
    exact take0_get fd (T + W) [B, W, D] T hfdsh t [b, w, d] (by omega)
      (by simp [IdxIn, hb, hwlt, hd])
  have hfinal : (reshape fs [T, B, W * D]).get [t, b, w * D + d]
      = fs.get [t, b, w, d] := by
    simp only [Tensor.get, reshape, hfssh]
    congr 1
    simp only [flatIndex, List.prod_cons, List.prod_nil]
    ring
  rw [hfinal, hfsget, hfdget]
  have htw : w + t < wl + T + wr := by omega
  set IDX := ((w * (wl + T + wr) + (w + t)) * B + b) * D + d with hIDX
  have hflatIDX : flatIndex [W, wl + T + wr, B, D] [w, w + t, b, d] = IDX := by
    simp only [flatIndex, List.prod_cons, List.prod_nil, hIDX]
    ring
  have hIdxIn : IdxIn [w, w + t, b, d] [W, wl + T + wr, B, D] := by
    simp [IdxIn, hwlt, htw, hb, hd]
  have hIDXlt : IDX < SZ := by
    rw [← hflatIDX, hSZ]
    exact flatIndex_lt _ _ hIdxIn
  have htrsget : trs.get [w, t, b, d] = cc.get [IDX] := by
    simp only [Tensor.get, htrs, reshape, hccsh]
    congr 1
    simp only [flatIndex, List.prod_cons, List.prod_nil, hIDX]
    have hTW : T + W = wl + T + wr + 1 := by omega
    rw [hTW]
    ring
  rw [htrsget, hccget IDX hIDXlt]
  have hback : tds.data IDX = tds.get [w, w + t, b, d] := by
    rw [Tensor.get, htdssh, hflatIDX]
  have hmWD : w * D + d < D * W := by
    have h1 : (w + 1) * D ≤ W * D := Nat.mul_le_mul_right _ (by omega)
    have h2 : (w + 1) * D = w * D + D := by ring
    have h3 : W * D = D * W := Nat.mul_comm _ _
    omega
  have hmodD : (w * D + d) % D = d := by
    rw [Nat.mul_comm w D]
    exact mod_mul_add w d D hd
  rw [hback, htdsget (w + t) htw, htrshget (w + t) htw,
    htileget (w + t) (w * D + d) htw hmWD, hmodD, hpadget (w + t) htw]
  rw [Nat.add_comm w t]
  by_cases h1 : t + w < wl
  · have h2 : ¬ (wl ≤ t + w ∧ t + w < T + wl) := by omega
    simp [h1, h2]
  · by_cases h3 : t + w - wl < T
    · have h4 : wl ≤ t + w ∧ t + w < T + wl := by omega
      simp [h1, h3, h4]
    · have h4 : ¬ (wl ≤ t + w ∧ t + w < T + wl) := by omega
      simp [h1, h3, h4]

theorem C1_windowed_batch_witness :
    windowed_batch exWin 3 = some (windowed_batch_core exWin 3) ∧
    (windowed_batch_core exWin 3).shape = [4, 1, 3] ∧
    (windowed_batch_core exWin 3).get [0, 0, 0] = 0 ∧
    (windowed_batch_core exWin 3).get [0, 0, 1] = 1 ∧
    (windowed_batch_core exWin 3).get [0, 0, 2] = 2 ∧
    (windowed_batch_core exWin 3).get [3, 0, 0] = 3 ∧
    (windowed_batch_core exWin 3).get [3, 0, 1] = 4 ∧
    (windowed_batch_core exWin 3).get [3, 0, 2] = 0 := by
  have h := C1_windowed_batch exWin 4 1 1 3 rfl (by decide)
  have h00 := h.2.2 0 0 0 0 (by decide) (by decide) (by decide) (by decide)
  refine ⟨h.1, by simpa using h.2.1, ?_, by decide, by decide, by decide, by decide,
    by decide⟩
  simpa using h00

end TheanoUtil
